import Mathlib

/-!
Verification development for the rustbrush layered raster-painting engine.

The Rust sources are shallowly embedded: `f32` arithmetic is modelled over `ℚ`
(with the float→integer casts made explicit), `u8` pixel channels are `ℕ`
constrained to `≤ 255` where a theorem needs it, fallible operations return
`Except`, and the single-threaded mutation of `Canvas`/`User` state is modelled
by explicit state passing.  Definitions keep the source names where Lean
allows.
-/

namespace Rustbrush

set_option maxRecDepth 40000

/-- Truncation toward zero of a rational: the rounding used by Rust `as`
casts from a float to an integer type. -/
def ratTrunc (q : ℚ) : ℤ := if 0 ≤ q then ⌊q⌋ else ⌈q⌉

/-- Model of Rust `expr as i32` on an `f32` value: truncation toward zero,
saturating at the `i32` range bounds. -/
def f32ToI32 (q : ℚ) : ℤ := max (-2147483648) (min (ratTrunc q) 2147483647)

/-- Model of Rust `expr as u8` on an `f32` value: truncation toward zero,
saturating to `[0, 255]`. -/
def f32ToU8 (q : ℚ) : ℕ := min (⌊q⌋.toNat) 255

/-- Model of `f32::round`: rounding half away from zero. -/
def f32Round (q : ℚ) : ℤ := if 0 ≤ q then ⌊q + 1/2⌋ else -⌊-q + 1/2⌋

/-- Integer square root by linear search (executable by kernel reduction;
agrees with `Nat.sqrt`). -/
def natSqrt (n : ℕ) : ℕ :=
  (List.range (n + 1)).foldl (fun acc k => if k * k ≤ n then k else acc) 0

/-- Model of `f32::sqrt` over `ℚ`: exact on squares of rationals (the only
inputs at which the theorems below evaluate it), nonnegative everywhere. -/
def sqrtQ (q : ℚ) : ℚ :=
  if 0 ≤ q then ((natSqrt q.num.toNat : ℚ) / (natSqrt q.den : ℚ)) else 0

/-- Model of `f32::cos` over `ℚ` (truncated Taylor series).  Only the
soft-circle falloff ring evaluates it, and no claim depends on its values. -/
def cosQ (x : ℚ) : ℚ := 1 - x ^ 2 / 2 + x ^ 4 / 24 - x ^ 6 / 720 + x ^ 8 / 40320

/-- Model of `std::f32::consts::PI` (the exact `f32` value). -/
def piQ : ℚ := 13176795 / 4194304

/-- Model of `ecolor::Color32`: one RGBA pixel, channels as bytes.  The
premultiplied storage conversion inside the external `ecolor` crate is treated
as identity: the repository reads and writes pixels only through
`from_rgba_unmultiplied` and the `r()`..`a()` accessors. -/
structure Px where
  r : ℕ
  g : ℕ
  b : ℕ
  a : ℕ
deriving DecidableEq

/-- `Color32::TRANSPARENT`. -/
def Px.transparent : Px := ⟨0, 0, 0, 0⟩

/-- `Color32::WHITE` (also the byte value of `egui::Rgba::WHITE`). -/
def Px.white : Px := ⟨255, 255, 255, 255⟩

/-- `Brush::SoftCircle` together with its `BrushBaseSettings` (the enum's
single variant, flattened).  The string `id` is presentation-only and
omitted. -/
structure Brush where
  inner_radius : ℚ
  radius : ℚ
  spacing : ℚ
  strength : ℚ
deriving DecidableEq

/-- `Brush::default()`: soft circle, inner radius 1, radius 10, spacing 1,
strength 1. -/
def Brush.default : Brush := ⟨1, 10, 1, 1⟩

/-- One stamp pixel: integer offset from the stamp center plus a color. -/
structure StampPixel where
  x : ℤ
  y : ℤ
  color : Px
deriving DecidableEq

/-- Componentwise scalar multiplication of a color, read back as bytes:
models `color * alpha_factor` in `soft_circle` as the operations code then
consumes it. -/
def scaleColor (c : Px) (f : ℚ) : Px :=
  ⟨f32ToU8 ((c.r : ℚ) * f), f32ToU8 ((c.g : ℚ) * f),
   f32ToU8 ((c.b : ℚ) * f), f32ToU8 ((c.a : ℚ) * f)⟩

/-- The inclusive integer range `a..=b`. -/
def intRangeIncl (a b : ℤ) : List ℤ := (List.range (b + 1 - a).toNat).map (fun n => a + n)

/-- `soft_circle` from `rustbrush_utils/src/lib.rs`: iterate the square
bounding box, keep offsets within `radius`, full alpha inside `inner_radius`,
raised-cosine falloff outside it. -/
def soft_circle (radius : ℚ) (inner_radius : ℚ) (color : Px) : List StampPixel :=
  let radius_squared := radius * radius
  let inner_radius_squared := inner_radius * inner_radius
  let range := intRangeIncl (f32ToI32 (-radius)) (f32ToI32 radius)
  range.foldl (fun pixels x =>
    range.foldl (fun pixels y =>
      let distance_squared : ℚ := ((x * x + y * y : ℤ) : ℚ)
      if distance_squared ≤ radius_squared then
        let alpha_factor : ℚ :=
          if distance_squared ≤ inner_radius_squared then 1
          else
            let t := min ((sqrtQ distance_squared - inner_radius) / (radius - inner_radius)) 1
            1/2 * (1 + cosQ (t * piQ))
        pixels ++ [⟨x, y, scaleColor color alpha_factor⟩]
      else pixels) pixels) []

/-- `Brush::compute_stamp`. -/
def Brush.compute_stamp (b : Brush) (color : Px) : List StampPixel :=
  soft_circle b.radius b.inner_radius color

/-- `target_px_in_bounds` from `rustbrush_utils/src/operations.rs`. -/
def target_px_in_bounds (target_px : ℤ × ℤ) (buffer_width buffer_height : ℕ) : Bool :=
  decide (0 ≤ target_px.1) && decide (target_px.1 < (buffer_width : ℤ)) &&
  decide (0 ≤ target_px.2) && decide (target_px.2 < (buffer_height : ℤ))

/-- `PaintOperation` (the struct's borrowed pixel buffer becomes an explicit
input returned updated by `process`). -/
structure PaintOperation where
  pixel_buffer : List Px
  canvas_width : ℕ
  canvas_height : ℕ
  brush : Brush
  color : Px
  cursor_position : ℚ × ℚ
  last_cursor_position : ℚ × ℚ
  is_eraser : Bool
deriving DecidableEq

/-- The body of the innermost loop of `PaintOperation::process`: one stamp
pixel applied at stamp center `(x, y)`.  Note the source ignores `is_eraser`
here: the eraser branch exists only inside a comment. -/
def paintStampPixel (w h : ℕ) (x y : ℚ) (sp : StampPixel) (buf : List Px) : List Px :=
  let px := f32ToI32 (x + (sp.x : ℚ))
  let py := f32ToI32 (y + (sp.y : ℚ))
  if target_px_in_bounds (px, py) w h then
    let index := (py * (w : ℤ) + px).toNat
    let stamp_alpha : ℚ := (sp.color.a : ℚ) / 255
    let src_alpha := stamp_alpha
    let dst := buf.getD index Px.transparent
    let dst_alpha : ℚ := (dst.a : ℚ) / 255
    let result_alpha := src_alpha + dst_alpha * (1 - src_alpha)
    if 0 < result_alpha then
      let blendc := fun (sc dc : ℕ) => f32ToU8 ((sc : ℚ) * src_alpha + (dc : ℚ) * (1 - src_alpha))
      buf.set index ⟨blendc sp.color.r dst.r, blendc sp.color.g dst.g, blendc sp.color.b dst.b,
        f32ToU8 (result_alpha * 255)⟩
    else buf
  else buf

/-- `distance = ((dx*dx + dy*dy) as f32).sqrt()` for a paint operation. -/
def PaintOperation.distance (op : PaintOperation) : ℚ :=
  let dx := op.cursor_position.1 - op.last_cursor_position.1
  let dy := op.cursor_position.2 - op.last_cursor_position.2
  sqrtQ (dx * dx + dy * dy)

/-- `steps = (distance / min_spacing).max(1.0) as i32`. -/
def PaintOperation.steps (op : PaintOperation) : ℤ :=
  f32ToI32 (max (op.distance / (op.brush.radius * op.brush.spacing)) 1)

/-- The stamp center used at loop iteration `i` of `process`. -/
def PaintOperation.stampCenter (op : PaintOperation) (i : ℕ) : ℚ × ℚ :=
  let t : ℚ := (i : ℚ) / ((op.steps : ℤ) : ℚ)
  (op.last_cursor_position.1 + (op.cursor_position.1 - op.last_cursor_position.1) * t,
   op.last_cursor_position.2 + (op.cursor_position.2 - op.last_cursor_position.2) * t)

/-- `PaintOperation::process`: walk the path in `0..=steps`, applying every
stamp pixel at each interpolated center. -/
def PaintOperation.process (op : PaintOperation) : List Px :=
  let stamp := op.brush.compute_stamp op.color
  (List.range (op.steps.toNat + 1)).foldl (fun buf i =>
    let c := op.stampCenter i
    stamp.foldl (fun b sp => paintStampPixel op.canvas_width op.canvas_height c.1 c.2 sp b) buf)
    op.pixel_buffer

/-- `lerp` from `operations.rs`: `((start + (end - start) * t).round() as u8).clamp(0, 255)`. -/
def lerpU8 (a b : ℕ) (t : ℚ) : ℕ :=
  min (f32Round ((a : ℚ) + ((b : ℚ) - (a : ℚ)) * t)).toNat 255

/-- `lerp_color32`. -/
def lerp_color32 (c1 c2 : Px) (t : ℚ) : Px :=
  ⟨lerpU8 c1.r c2.r t, lerpU8 c1.g c2.g t, lerpU8 c1.b c2.b t, lerpU8 c1.a c2.a t⟩

/-- `SmearOperation`. -/
structure SmearOperation where
  pixel_buffer : List Px
  pixel_buffer_width : ℕ
  pixel_buffer_height : ℕ
  brush : Brush
  cursor_position : ℚ × ℚ
  last_cursor_position : ℚ × ℚ
  smear_strength : ℚ
deriving DecidableEq

/-- The body of the innermost loop of `SmearOperation::process`: one stamp
pixel, pulling the target pixel from behind the stroke direction. -/
def smearStampPixel (w h : ℕ) (dx dy strength : ℚ) (x y : ℚ) (sp : StampPixel)
    (buf : List Px) : List Px :=
  let px := f32ToI32 (x + (sp.x : ℚ))
  let py := f32ToI32 (y + (sp.y : ℚ))
  if target_px_in_bounds (px, py) w h then
    let smear_dx := -dx * strength
    let smear_dy := -dy * strength
    let target_px := f32ToI32 ((px : ℚ) + smear_dx)
    let target_py := f32ToI32 ((py : ℚ) + smear_dy)
    if target_px_in_bounds (target_px, target_py) w h then
      let stamp_alpha : ℚ := (sp.color.a : ℚ) / 255
      let smear_strength := stamp_alpha * strength
      if 0 < smear_strength then
        let index := (py * (w : ℤ) + px).toNat
        let target_index := (target_py * (w : ℤ) + target_px).toNat
        let current_color := buf.getD index Px.transparent
        let target_color := buf.getD target_index Px.transparent
        buf.set index (lerp_color32 current_color target_color smear_strength)
      else buf
    else buf
  else buf

/-- `steps` for a smear operation (same walk as paint). -/
def SmearOperation.steps (op : SmearOperation) : ℤ :=
  let dx := op.cursor_position.1 - op.last_cursor_position.1
  let dy := op.cursor_position.2 - op.last_cursor_position.2
  f32ToI32 (max (sqrtQ (dx * dx + dy * dy) / (op.brush.radius * op.brush.spacing)) 1)

/-- `SmearOperation::process` (the stamp is computed with `Color32::WHITE`). -/
def SmearOperation.process (op : SmearOperation) : List Px :=
  let dx := op.cursor_position.1 - op.last_cursor_position.1
  let dy := op.cursor_position.2 - op.last_cursor_position.2
  let stamp := op.brush.compute_stamp Px.white
  (List.range (op.steps.toNat + 1)).foldl (fun buf i =>
    let t : ℚ := (i : ℚ) / ((op.steps : ℤ) : ℚ)
    let x := op.last_cursor_position.1 + dx * t
    let y := op.last_cursor_position.2 + dy * t
    stamp.foldl (fun b sp =>
      smearStampPixel op.pixel_buffer_width op.pixel_buffer_height dx dy op.smear_strength
        x y sp b) buf)
    op.pixel_buffer

/-! ## Canvas and user model (`rustbrush_gui/src/canvas.rs`, `user.rs`) -/

/-- `BrushStrokeKind`. -/
inductive BrushStrokeKind
  | Paint
  | Erase
  | Smudge
deriving DecidableEq

/-- `BrushStrokeFrame` (timestamps, which no behavior reads, are omitted). -/
structure BrushStrokeFrame where
  brush : Brush
  color : Px
  cursor_position : ℚ × ℚ
  last_cursor_position : ℚ × ℚ
deriving DecidableEq

/-- `BrushStroke`. -/
structure BrushStroke where
  kind : BrushStrokeKind
  frames : List BrushStrokeFrame
deriving DecidableEq

/-- `UserAction`.  The `timestamp` and the single-variant `kind` discriminant
are omitted; `UserActionData::BrushStroke` is the only payload. -/
structure UserAction where
  id : ℕ
  data : BrushStroke
deriving DecidableEq

/-- `CanvasLayer`: the pixel buffer plus the visibility flag.  The `texture`,
`name` and `dirty` fields are presentation bookkeeping no claim touches and
are omitted. -/
structure CanvasLayer where
  pixels : List Px
  visible : Bool
deriving DecidableEq

/-- `CanvasLayer::new`: an all-transparent, visible layer. -/
def CanvasLayer.new (width height : ℕ) : CanvasLayer :=
  ⟨List.replicate (width * height) Px.transparent, true⟩

/-- `Canvas` (with its inner `CanvasState` flattened). -/
structure Canvas where
  layers : List CanvasLayer
  width : ℕ
  height : ℕ
deriving DecidableEq

/-- A fresh canvas with `n` transparent layers, as `App::default` builds it. -/
def Canvas.fresh (n width height : ℕ) : Canvas :=
  ⟨List.replicate n (CanvasLayer.new width height), width, height⟩

/-- `Canvas::clear`: fills EVERY layer's pixels with `Color32::TRANSPARENT`. -/
def Canvas.clear (c : Canvas) : Canvas :=
  { c with layers := c.layers.map fun l => { l with pixels := l.pixels.map fun _ => Px.transparent } }

/-- Replace the pixels of layer `i` (out-of-range indexing would panic in
Rust; modelled as a no-op, which no claim exercises). -/
def Canvas.setLayerPixels (c : Canvas) (i : ℕ) (px : List Px) : Canvas :=
  match c.layers[i]? with
  | none => c
  | some l => { c with layers := c.layers.set i { l with pixels := px } }

/-- `Canvas::paint`. -/
def Canvas.paint (c : Canvas) (layer : ℕ) (frame : BrushStrokeFrame) : Canvas :=
  match c.layers[layer]? with
  | none => c
  | some l =>
    c.setLayerPixels layer
      (PaintOperation.process
        ⟨l.pixels, c.width, c.height, frame.brush, frame.color,
         frame.cursor_position, frame.last_cursor_position, false⟩)

/-- `Canvas::erase`: same `PaintOperation`, color `Rgba::WHITE`, `is_eraser`
set to `true` (which `process` ignores). -/
def Canvas.erase (c : Canvas) (layer : ℕ) (frame : BrushStrokeFrame) : Canvas :=
  match c.layers[layer]? with
  | none => c
  | some l =>
    c.setLayerPixels layer
      (PaintOperation.process
        ⟨l.pixels, c.width, c.height, frame.brush, Px.white,
         frame.cursor_position, frame.last_cursor_position, true⟩)

/-- `Canvas::smudge` (`SmudgeOperation` in `canvas.rs` is `SmearOperation` in
`operations.rs`), with `smudge_strength` hard-coded to `1.0`. -/
def Canvas.smudge (c : Canvas) (layer : ℕ) (frame : BrushStrokeFrame) : Canvas :=
  match c.layers[layer]? with
  | none => c
  | some l =>
    c.setLayerPixels layer
      (SmearOperation.process
        ⟨l.pixels, c.width, c.height, frame.brush,
         frame.cursor_position, frame.last_cursor_position, 1⟩)

/-- `Canvas::process_brush_stroke_frame`. -/
def Canvas.process_brush_stroke_frame (c : Canvas) (layer : ℕ) (kind : BrushStrokeKind)
    (frame : BrushStrokeFrame) : Canvas :=
  match kind with
  | .Paint => c.paint layer frame
  | .Erase => c.erase layer frame
  | .Smudge => c.smudge layer frame

/-- The merged byte buffer built by `Canvas::save_as_png` before PNG encoding
(the encoding itself is external).  Every layer's bytes are written over the
previous content — note: no visibility check, no alpha compositing. -/
def Canvas.save_png_merged (c : Canvas) : List ℕ :=
  c.layers.foldl (fun merged layer =>
    (List.range layer.pixels.length).foldl (fun m i =>
      let p := layer.pixels.getD i Px.transparent
      (((m.set (i * 4) p.r).set (i * 4 + 1) p.g).set (i * 4 + 2) p.b).set (i * 4 + 3) p.a)
      merged)
    (List.replicate (c.width * c.height * 4) 0)

/-- `User` (the pointer-button flags, set only by the shell, are omitted). -/
structure User where
  current_color : Px
  current_paint_brush : Brush
  current_eraser_brush : Brush
  current_smudge_brush : Brush
  current_layer : ℕ
  current_action_id : ℕ
  action_history : List UserAction
  cursor_position : ℚ × ℚ
  last_cursor_position : ℚ × ℚ
deriving DecidableEq

/-- `User::default`: white color, default brushes with strength 1, layer 0,
action id 0, empty history, cursor at the origin. -/
def User.default : User :=
  ⟨Px.white, Brush.default, Brush.default, Brush.default, 0, 0, [], (0, 0), (0, 0)⟩

/-- Replay one recorded action: its frames in append order, onto `layer`. -/
def replayActionFrames (layer : ℕ) (c : Canvas) (a : UserAction) : Canvas :=
  a.data.frames.foldl (fun cc fr => cc.process_brush_stroke_frame layer a.data.kind fr) c

/-- `User::undo`: no-op at cursor 0; otherwise decrement the cursor, clear the
canvas (all layers), and replay every action with `id ≤` the new cursor, in
log order, onto the current layer. -/
def User.undo (u : User) (c : Canvas) : User × Canvas :=
  if 0 < u.current_action_id then
    let cid := u.current_action_id - 1
    let c2 := (u.action_history.filter fun a => decide (a.id ≤ cid)).foldl
      (replayActionFrames u.current_layer) c.clear
    ({ u with current_action_id := cid }, c2)
  else (u, c)

/-- `User::redo`: find the first logged action with `id >` cursor; if none, a
no-op; otherwise move the cursor to its id, clear and replay as in `undo`. -/
def User.redo (u : User) (c : Canvas) : User × Canvas :=
  match u.action_history.find? (fun a => decide (u.current_action_id < a.id)) with
  | none => (u, c)
  | some next_action =>
    let cid := next_action.id
    let c2 := (u.action_history.filter fun a => decide (a.id ≤ cid)).foldl
      (replayActionFrames u.current_layer) c.clear
    ({ u with current_action_id := cid }, c2)

/-- `User::truncate_action_history`: retain only actions with
`id ≤ current_action_id`. -/
def User.truncate_action_history (u : User) : User :=
  { u with action_history := u.action_history.filter fun a => decide (a.id ≤ u.current_action_id) }

/-- `User::start_brush_stroke`: truncate, increment the action id, push a new
empty stroke with that id. -/
def User.start_brush_stroke (u : User) (kind : BrushStrokeKind) : User :=
  let u1 := u.truncate_action_history
  let cid := u1.current_action_id + 1
  { u1 with
    current_action_id := cid
    action_history := u1.action_history ++ [⟨cid, ⟨kind, []⟩⟩] }

/-- `User::current_action`: the action with `id == current_action_id`,
searching the log from the rear. -/
def User.current_action? (u : User) : Option UserAction :=
  u.action_history.reverse.find? (fun a => decide (a.id = u.current_action_id))

/-- Append a frame to the first action with the given id in a reversed log. -/
def pushFrameRev : List UserAction → ℕ → BrushStrokeFrame → List UserAction
  | [], _, _ => []
  | a :: rest, cid, fr =>
    if a.id = cid then
      { a with data := { a.data with frames := a.data.frames ++ [fr] } } :: rest
    else a :: pushFrameRev rest cid fr

/-- Append a frame to the rearmost action with the given id. -/
def pushFrameToCurrent (l : List UserAction) (cid : ℕ) (fr : BrushStrokeFrame) :
    List UserAction :=
  (pushFrameRev l.reverse cid fr).reverse

/-- `User::continue_brush_stroke`: fails (dropping the input frame) when no
action matches the cursor; otherwise snapshots the brush for the stroke kind,
appends a frame built from the current pointer state, and returns the layer,
kind and frame for immediate rasterization. -/
def User.continue_brush_stroke (u : User) :
    Except String (User × (ℕ × BrushStrokeKind × BrushStrokeFrame)) :=
  match u.current_action? with
  | none => .error ("No current action")
  | some action =>
    let kind := action.data.kind
    let brush :=
      match kind with
      | .Paint => u.current_paint_brush
      | .Erase => u.current_eraser_brush
      | .Smudge => u.current_smudge_brush
    let frame : BrushStrokeFrame := ⟨brush, u.current_color, u.cursor_position, u.last_cursor_position⟩
    .ok ({ u with action_history := pushFrameToCurrent u.action_history u.current_action_id frame },
         (u.current_layer, kind, frame))

/-- One full pointer-move step while painting, as `App::update` drives it:
`continue_brush_stroke`, then on success `process_brush_stroke_frame`; on
error the frame is dropped and nothing changes. -/
def continueStrokeStep (u : User) (c : Canvas) : User × Canvas :=
  match u.continue_brush_stroke with
  | .error _ => (u, c)
  | .ok (u', layer, kind, frame) => (u', c.process_brush_stroke_frame layer kind frame)

/-! ## Definitions modelled from the specification's words, for comparison
with the code-derived definitions above. -/

/-- Modelled from the spec (claim C3): the paint blend with the saturation
bias, `blendWeight = srcAlpha * 1.3` clamped so the effective weight is `≤ 1`,
`resultChannel = srcChannel*blendWeight + dstChannel*(1-blendWeight)`, output
alpha `srcAlpha + dstAlpha*(1-srcAlpha)` clamped to 1. -/
def specBlendBias (spColor dst : Px) : Px :=
  let srcAlpha : ℚ := (spColor.a : ℚ) / 255
  let dstAlpha : ℚ := (dst.a : ℚ) / 255
  let wt : ℚ := min (srcAlpha * (13 / 10)) 1
  let blendc := fun (sc dc : ℕ) => f32ToU8 ((sc : ℚ) * wt + (dc : ℚ) * (1 - wt))
  ⟨blendc spColor.r dst.r, blendc spColor.g dst.g, blendc spColor.b dst.b,
   f32ToU8 (min (srcAlpha + dstAlpha * (1 - srcAlpha)) 1 * 255)⟩

/-- Modelled from the spec (claim C7): `steps = max(1, round(distance /
(brush.radius * brush.spacing)))`. -/
def specStepsRound (op : PaintOperation) : ℤ :=
  max 1 (f32Round (op.distance / (op.brush.radius * op.brush.spacing)))

/-- Modelled from the spec (claim C5): flatten starts from an all-zero fully
transparent buffer, iterates only the visible layers in storage order, and
composites each pixel with the standard over operator in normalized alpha. -/
def specFlatten (c : Canvas) : List ℕ :=
  let init : List (ℚ × ℚ × ℚ × ℚ) := List.replicate (c.width * c.height) (0, 0, 0, 0)
  let out := (c.layers.filter (·.visible)).foldl (fun acc layer =>
    (List.range acc.length).map (fun i =>
      let dst := acc.getD i (0, 0, 0, 0)
      let src := layer.pixels.getD i Px.transparent
      let srcAlpha : ℚ := (src.a : ℚ) / 255
      let dstAlpha : ℚ := dst.2.2.2
      let outAlpha := srcAlpha + dstAlpha * (1 - srcAlpha)
      if 0 < outAlpha then
        (((src.r : ℚ) / 255 * srcAlpha + dst.1 * dstAlpha * (1 - srcAlpha)) / outAlpha,
         ((src.g : ℚ) / 255 * srcAlpha + dst.2.1 * dstAlpha * (1 - srcAlpha)) / outAlpha,
         ((src.b : ℚ) / 255 * srcAlpha + dst.2.2.1 * dstAlpha * (1 - srcAlpha)) / outAlpha,
         outAlpha)
      else (0, 0, 0, 0)) ) init
  out.foldr (fun p acc =>
    f32ToU8 (p.1 * 255) :: f32ToU8 (p.2.1 * 255) :: f32ToU8 (p.2.2.1 * 255) ::
    f32ToU8 (p.2.2.2 * 255) :: acc) []

/-! ## Claim C6: branch discard -/

/-- C6: `start_brush_stroke` truncates the action log to entries with
`id ≤ current_action_id`, appends a new action with id `current_action_id + 1`,
and sets the cursor to that id; a subsequent `redo` is then a no-op: the canvas
and the history cursor are unchanged.  Stated for every user state, hence in
particular for any state reached after an `undo()`. -/
theorem start_stroke_branch_discard_c6 (u : User) (c : Canvas) (kind : BrushStrokeKind) :
    (u.start_brush_stroke kind).action_history
      = u.action_history.filter (fun a => decide (a.id ≤ u.current_action_id))
        ++ [⟨u.current_action_id + 1, ⟨kind, []⟩⟩]
    ∧ (u.start_brush_stroke kind).current_action_id = u.current_action_id + 1
    ∧ (u.start_brush_stroke kind).redo c = (u.start_brush_stroke kind, c) := by
  refine ⟨rfl, rfl, ?_⟩
  have hnone : (u.start_brush_stroke kind).action_history.find?
      (fun a => decide ((u.start_brush_stroke kind).current_action_id < a.id)) = none := by
    rw [List.find?_eq_none]
    intro a ha
    have ha' : a ∈ u.action_history.filter (fun a => decide (a.id ≤ u.current_action_id))
        ++ [(⟨u.current_action_id + 1, ⟨kind, []⟩⟩ : UserAction)] := ha
    rcases List.mem_append.1 ha' with hf | hs
    · have := (List.mem_filter.1 hf).2
      have hle : a.id ≤ u.current_action_id := of_decide_eq_true this
      simp only [decide_eq_true_eq]
      show ¬ (u.current_action_id + 1 < a.id)
      omega
    · have : a = (⟨u.current_action_id + 1, ⟨kind, []⟩⟩ : UserAction) := by
        simpa using hs
      subst this
      simp only [decide_eq_true_eq]
      show ¬ (u.current_action_id + 1 < u.current_action_id + 1)
      omega
  unfold User.redo
  rw [hnone]

/-! ## Claim C8: continueStroke without a matching action -/

/-- C8: when no action matches the current history cursor (for example before
any `start_brush_stroke`), `continue_brush_stroke` returns a recoverable
error, the input frame is dropped, and the full driver step leaves the user
state (action log and cursor) and every layer's pixels exactly unchanged. -/
theorem continue_no_action_error_c8 (u : User) (h : u.current_action? = none) :
    u.continue_brush_stroke = Except.error ("No current action")
    ∧ ∀ c : Canvas, continueStrokeStep u c = (u, c) := by
  constructor
  · unfold User.continue_brush_stroke
    rw [h]
  · intro c
    unfold continueStrokeStep User.continue_brush_stroke
    rw [h]

/-- Witness for C8 at a concrete input: the default (fresh-session) user has
no current action, so `continue_brush_stroke` errs and the driver step is the
identity on the fresh 800×600 two-layer canvas. -/
theorem continue_no_action_error_c8_witness :
    User.default.continue_brush_stroke = Except.error ("No current action")
    ∧ continueStrokeStep User.default (Canvas.fresh 2 800 600)
      = (User.default, Canvas.fresh 2 800 600) :=
  ⟨(continue_no_action_error_c8 User.default rfl).1,
   (continue_no_action_error_c8 User.default rfl).2 (Canvas.fresh 2 800 600)⟩

/-! ## Claim C2: erase behavior -/

/-- A one-pixel canvas holding an opaque-ish black pixel with alpha 100. -/
def c2Canvas : Canvas := ⟨[⟨[⟨0, 0, 0, 100⟩], true⟩], 1, 1⟩

/-- A zero-length erase frame at the origin with a hard unit-radius brush of
strength 1. -/
def c2Frame : BrushStrokeFrame := ⟨⟨1, 1, 1, 1⟩, Px.white, (0, 0), (0, 0)⟩

/-- C2, evaluation of the code at the failing input: because
`PaintOperation::process` never reads `is_eraser` (the eraser branch survives
only in a comment), an Erase frame runs the paint blend with `Rgba::WHITE`:
the pixel `(0,0,0,100)` becomes `(255,255,255,255)` — all three color channels
are modified and the alpha increases, while the claim demands untouched RGB
and alpha `100 * (1 - 1·1) = 0`. -/
theorem erase_paints_white_c2 :
    (c2Canvas.process_brush_stroke_frame 0 .Erase c2Frame).layers
      = [⟨[⟨255, 255, 255, 255⟩], true⟩] := by
  with_unfolding_all rfl

/-! ## Claim C3: paint blend law -/

/-- C3 counterexample: the code blends with weight `srcAlpha` (no `1.3` bias).
At stamp color `(255,0,0,128)` over destination `(0,0,0,255)` the code writes
red channel `128`, while the claimed biased law yields `166`. -/
theorem paint_blend_bias_counterexample_c3 :
    paintStampPixel 1 1 0 0 ⟨0, 0, ⟨255, 0, 0, 128⟩⟩ [⟨0, 0, 0, 255⟩] = [⟨128, 0, 0, 255⟩]
    ∧ specBlendBias ⟨255, 0, 0, 128⟩ ⟨0, 0, 0, 255⟩ = ⟨166, 0, 0, 255⟩
    ∧ (⟨128, 0, 0, 255⟩ : Px) ≠ ⟨166, 0, 0, 255⟩ := by
  with_unfolding_all decide

/-- C3 amended: for an in-bounds stamp pixel the code blends each channel
with weight exactly `srcAlpha` (no bias constant), truncates to a byte, and
writes alpha `(srcAlpha + dstAlpha*(1-srcAlpha)) * 255` truncated (no clamp
is needed, the value never exceeds 255); when the resulting alpha is not
positive the pixel is left unmodified. -/
theorem paint_blend_amended_c3 (w h : ℕ) (x y : ℚ) (sp : StampPixel) (buf : List Px)
    (px py : ℤ) (index : ℕ) (dst : Px) (sa ra : ℚ)
    (hpx : px = f32ToI32 (x + (sp.x : ℚ))) (hpy : py = f32ToI32 (y + (sp.y : ℚ)))
    (hin : target_px_in_bounds (px, py) w h = true)
    (hidx : index = (py * (w : ℤ) + px).toNat)
    (hdst : dst = buf.getD index Px.transparent)
    (hsa : sa = (sp.color.a : ℚ) / 255)
    (hra : ra = sa + (dst.a : ℚ) / 255 * (1 - sa)) :
    (0 < ra →
      paintStampPixel w h x y sp buf = buf.set index
        ⟨f32ToU8 ((sp.color.r : ℚ) * sa + (dst.r : ℚ) * (1 - sa)),
         f32ToU8 ((sp.color.g : ℚ) * sa + (dst.g : ℚ) * (1 - sa)),
         f32ToU8 ((sp.color.b : ℚ) * sa + (dst.b : ℚ) * (1 - sa)),
         f32ToU8 (ra * 255)⟩)
    ∧ (ra ≤ 0 → paintStampPixel w h x y sp buf = buf) := by
  subst hpx hpy hidx hdst hsa hra
  constructor
  · intro h0
    unfold paintStampPixel
    simp only [hin, if_true]
    rw [if_pos h0]
  · intro h0
    unfold paintStampPixel
    simp only [hin, if_true]
    rw [if_neg (not_lt.2 h0)]

/-- Witness for C3's amended blend law at a concrete input. -/
theorem paint_blend_amended_c3_witness :
    paintStampPixel 1 1 0 0 ⟨0, 0, ⟨255, 0, 0, 128⟩⟩ [⟨0, 0, 0, 255⟩] = [⟨128, 0, 0, 255⟩] := by
  have h := (paint_blend_amended_c3 1 1 0 0 ⟨0, 0, ⟨255, 0, 0, 128⟩⟩ [⟨0, 0, 0, 255⟩]
    0 0 0 ⟨0, 0, 0, 255⟩ (128 / 255) (128 / 255 + (255 : ℚ) / 255 * (1 - 128 / 255))
    (by with_unfolding_all rfl) (by with_unfolding_all rfl) (by with_unfolding_all rfl)
    (by with_unfolding_all rfl) (by with_unfolding_all rfl) (by with_unfolding_all rfl)
    (by with_unfolding_all rfl)).1 (by with_unfolding_all decide)
  rw [h]
  with_unfolding_all rfl

/-! ## Claim C5: flatten for export -/

/-- Two one-pixel layers: an opaque red bottom layer under a fully
transparent top layer, both visible. -/
def c5Canvas : Canvas := ⟨[⟨[⟨255, 0, 0, 255⟩], true⟩, ⟨[⟨0, 0, 0, 0⟩], true⟩], 1, 1⟩

/-- C5, evaluation of the code at the failing input: `Canvas::save_as_png`
overwrites the merged buffer with every layer's raw bytes instead of
compositing, so the transparent top layer erases the red bottom layer and the
export is fully transparent, while the claimed over-compositing flatten
yields opaque red. -/
theorem save_png_overwrites_c5 :
    c5Canvas.save_png_merged = [0, 0, 0, 0]
    ∧ specFlatten c5Canvas = [255, 0, 0, 255]
    ∧ ([0, 0, 0, 0] : List ℕ) ≠ [255, 0, 0, 255] := by
  with_unfolding_all decide

/-! ## Claim C7: path walking -/

/-- A paint operation moving from the origin to `(2.7, 0)` with
`radius * spacing = 1`. -/
def c7Op : PaintOperation := ⟨[], 4, 4, ⟨1, 1, 1, 1⟩, Px.white, (27/10, 0), (0, 0), false⟩

/-- C7 counterexample: the code truncates `distance / (radius*spacing)`
toward zero (`as i32`), it does not round.  At distance `2.7` the code takes
2 steps while the claimed `max(1, round(2.7))` is 3. -/
theorem path_steps_counterexample_c7 :
    c7Op.steps = 2 ∧ specStepsRound c7Op = 3 ∧ ((2 : ℤ) ≠ 3) := by
  with_unfolding_all decide

/-- C7 amended: `steps` is the truncation toward zero of
`max(distance / (radius*spacing), 1)` (not a rounding); it is always at least
1; stamp centers are placed at `lerp(P0, P1, i/steps)` for `i` in
`0..=steps`; and for a zero-length move every stamp center coincides with the
cursor, so at least one stamp is still placed. -/
theorem path_walk_amended_c7 (op : PaintOperation)
    (hpos : 0 < op.brush.radius * op.brush.spacing) :
    op.steps = f32ToI32 (max (op.distance / (op.brush.radius * op.brush.spacing)) 1)
    ∧ 1 ≤ op.steps
    ∧ (∀ i : ℕ, op.stampCenter i
        = (op.last_cursor_position.1
             + (op.cursor_position.1 - op.last_cursor_position.1) * ((i : ℚ) / ((op.steps : ℤ) : ℚ)),
           op.last_cursor_position.2
             + (op.cursor_position.2 - op.last_cursor_position.2) * ((i : ℚ) / ((op.steps : ℤ) : ℚ))))
    ∧ (op.cursor_position = op.last_cursor_position →
        ∀ i : ℕ, op.stampCenter i = op.cursor_position) := by
  refine ⟨rfl, ?_, fun i => rfl, ?_⟩
  · have h1 : (1 : ℚ) ≤ max (op.distance / (op.brush.radius * op.brush.spacing)) 1 :=
      le_max_right _ _
    unfold PaintOperation.steps f32ToI32 ratTrunc
    rw [if_pos (le_trans zero_le_one h1)]
    have hf : (1 : ℤ) ≤ ⌊max (op.distance / (op.brush.radius * op.brush.spacing)) 1⌋ :=
      Int.le_floor.2 (by exact_mod_cast h1)
    omega
  · intro heq i
    unfold PaintOperation.stampCenter
    rw [heq]
    simp

/-- Witness for C7's amended path-walk description at a concrete operation. -/
theorem path_walk_amended_c7_witness :
    0 < c7Op.brush.radius * c7Op.brush.spacing ∧ 1 ≤ c7Op.steps :=
  ⟨by with_unfolding_all decide, (path_walk_amended_c7 c7Op (by with_unfolding_all decide)).2.1⟩

/-! ## Claim C1: undo -/

/-- A user one action deep in history, active layer 0. -/
def c1User : User :=
  { User.default with current_action_id := 1, action_history := [⟨1, ⟨.Paint, []⟩⟩] }

/-- A two-layer one-pixel canvas whose second (non-active) layer holds a
nonzero pixel. -/
def c1Canvas : Canvas := ⟨[⟨[⟨1, 2, 3, 4⟩], true⟩, ⟨[⟨9, 9, 9, 9⟩], true⟩], 1, 1⟩

/-- C1 counterexample: `undo` calls `Canvas::clear`, which clears EVERY
layer, not only the active one — after the undo the non-active layer 1 has
lost its pixels, contradicting the claim that other layers' pixels are
unchanged (the cursor is decremented as claimed). -/
theorem undo_clears_other_layers_c1 :
    ((c1User.undo c1Canvas).2.layers.getD 1 ⟨[], true⟩).pixels
      ≠ (c1Canvas.layers.getD 1 ⟨[], true⟩).pixels
    ∧ (c1User.undo c1Canvas).1.current_action_id = 0 := by
  with_unfolding_all decide

/-- C1 amended: `undo` is a no-op at cursor 0; otherwise it decrements the
cursor, clears EVERY layer's pixels (not only the active layer's), and
replays, onto the active layer, every action with `id ≤` the new cursor in
log order — which is ascending id order whenever the log is sorted by id, as
the history invariant guarantees — applying frames in original append
order. -/
theorem undo_amended_c1 (u : User) (c : Canvas) :
    (u.current_action_id = 0 → u.undo c = (u, c))
    ∧ (0 < u.current_action_id →
        (u.undo c).1 = { u with current_action_id := u.current_action_id - 1 }
        ∧ (u.undo c).2
          = (u.action_history.filter fun a => decide (a.id ≤ u.current_action_id - 1)).foldl
              (replayActionFrames u.current_layer) c.clear
        ∧ (Canvas.clear c).layers
          = c.layers.map fun l => { l with pixels := List.replicate l.pixels.length Px.transparent })
    ∧ (List.Pairwise (fun a b : UserAction => a.id < b.id) u.action_history →
        List.Pairwise (fun a b : UserAction => a.id < b.id)
          (u.action_history.filter fun a => decide (a.id ≤ u.current_action_id - 1))) := by
  refine ⟨?_, ?_, ?_⟩
  · intro h
    unfold User.undo
    rw [if_neg (by omega)]
  · intro h
    unfold User.undo
    rw [if_pos h]
    refine ⟨rfl, rfl, ?_⟩
    unfold Canvas.clear
    have hmap : ∀ L : List CanvasLayer,
        (L.map fun l => { l with pixels := l.pixels.map fun _ => Px.transparent })
          = L.map fun l => { l with pixels := List.replicate l.pixels.length Px.transparent } := by
      intro L
      induction L with
      | nil => rfl
      | cons a L ih =>
        have hpx : a.pixels.map (fun _ => Px.transparent)
            = List.replicate a.pixels.length Px.transparent := by
          induction a.pixels with
          | nil => rfl
          | cons p ps ihp => simp [List.replicate_succ, ihp]
        simp only [List.map_cons, ih, hpx]
    exact hmap c.layers
  · intro hsort
    exact hsort.filter _

/-- Witness for C1's amended undo description at a concrete state. -/
theorem undo_amended_c1_witness :
    (c1User.undo c1Canvas).1 = { c1User with current_action_id := c1User.current_action_id - 1 }
    ∧ (c1User.undo c1Canvas).2
      = (c1User.action_history.filter fun a => decide (a.id ≤ c1User.current_action_id - 1)).foldl
          (replayActionFrames c1User.current_layer) c1Canvas.clear :=
  ⟨((undo_amended_c1 c1User c1Canvas).2.1 (by with_unfolding_all decide)).1,
   ((undo_amended_c1 c1User c1Canvas).2.1 (by with_unfolding_all decide)).2.1⟩

/-! ## Claim C9: bounds clipping -/

/-- Reading `List.getD` through a `List.set`. -/
theorem getD_set (l : List Px) (n i : ℕ) (v d : Px) :
    ((l.set n v).getD i d) = if i = n ∧ n < l.length then v else l.getD i d := by
  induction l generalizing n i with
  | nil => simp [List.getD]
  | cons a l ih =>
    cases n with
    | zero =>
      cases i with
      | zero => simp [List.getD]
      | succ j => simp [List.getD]
    | succ m =>
      cases i with
      | zero => simp [List.getD]
      | succ j =>
        simp only [List.set_cons_succ, List.getD_cons_succ, ih, List.length_cons]
        by_cases hj : j = m ∧ m < l.length
        · rw [if_pos hj, if_pos ⟨by omega, by omega⟩]
        · rw [if_neg hj, if_neg (by omega)]

/-- Every in-bounds pair yields a linear index strictly below `w * h`. -/
theorem in_bounds_index_lt (w h : ℕ) (px py : ℤ)
    (hb : target_px_in_bounds (px, py) w h = true) :
    0 ≤ px ∧ px < (w : ℤ) ∧ 0 ≤ py ∧ py < (h : ℤ) ∧ (py * (w : ℤ) + px).toNat < w * h := by
  have hb' := hb
  simp only [target_px_in_bounds, Bool.and_eq_true, decide_eq_true_eq] at hb'
  obtain ⟨⟨⟨h1, h2⟩, h3⟩, h4⟩ := hb'
  refine ⟨h1, h2, h3, h4, ?_⟩
  have hw : (0 : ℤ) ≤ (w : ℤ) := Int.natCast_nonneg w
  have hexp : (py + 1) * (w : ℤ) = py * w + w := by ring
  have hmul : (py + 1) * (w : ℤ) ≤ (h : ℤ) * (w : ℤ) :=
    mul_le_mul_of_nonneg_right (by omega) hw
  have hlt : py * (w : ℤ) + px < (w : ℤ) * (h : ℤ) := by
    have : py * (w : ℤ) + px < py * w + w := by omega
    nlinarith
  have hnn : 0 ≤ py * (w : ℤ) + px := by
    have : 0 ≤ py * (w : ℤ) := mul_nonneg h3 hw
    omega
  have hcast : ((py * (w : ℤ) + px).toNat : ℤ) < ((w * h : ℕ) : ℤ) := by
    rw [Int.toNat_of_nonneg hnn]
    push_cast
    linarith
  exact_mod_cast hcast

/-- Each stamp-pixel application of paint preserves the buffer length. -/
theorem paintStampPixel_length (w h : ℕ) (x y : ℚ) (sp : StampPixel) (buf : List Px) :
    (paintStampPixel w h x y sp buf).length = buf.length := by
  unfold paintStampPixel
  dsimp only
  split
  · split
    · exact List.length_set _ _ _
    · rfl
  · rfl

/-- Each stamp-pixel application of smear preserves the buffer length. -/
theorem smearStampPixel_length (w h : ℕ) (dx dy s x y : ℚ) (sp : StampPixel) (buf : List Px) :
    (smearStampPixel w h dx dy s x y sp buf).length = buf.length := by
  unfold smearStampPixel
  dsimp only
  split
  · split
    · split
      · exact List.length_set _ _ _
      · rfl
    · rfl
  · rfl

/-- A fold whose step preserves the buffer length preserves it overall. -/
theorem foldl_length {β : Type} (f : List Px → β → List Px)
    (hf : ∀ b a, (f b a).length = b.length) :
    ∀ (l : List β) (b : List Px), (l.foldl f b).length = b.length := by
  intro l
  induction l with
  | nil => intro b; rfl
  | cons a l ih => intro b; rw [List.foldl_cons, ih, hf]

/-- `PaintOperation::process` preserves the buffer length. -/
theorem paint_process_length (op : PaintOperation) :
    op.process.length = op.pixel_buffer.length := by
  unfold PaintOperation.process
  exact foldl_length _ (fun b i => foldl_length _ (fun b' sp => paintStampPixel_length _ _ _ _ _ _) _ b) _ _

/-- `SmearOperation::process` preserves the buffer length. -/
theorem smear_process_length (op : SmearOperation) :
    op.process.length = op.pixel_buffer.length := by
  unfold SmearOperation.process
  exact foldl_length _ (fun b i => foldl_length _ (fun b' sp => smearStampPixel_length _ _ _ _ _ _ _ _ _) _ b) _ _

/-- C9: the rasterizer never touches the pixel buffer out of range: (i) any
stamp/target position passing `target_px_in_bounds` has `px ∈ [0,w)`,
`py ∈ [0,h)` and linear index `py*w+px < w*h` — and the definitions index the
buffer only under this guard; (ii) a paint stamp pixel falling out of bounds
is silently skipped (buffer unchanged); (iii) a smear stamp pixel falling out
of bounds is skipped; (iv) a smear whose pulled source pixel falls out of
bounds is skipped; (v)/(vi) paint and smear never change the buffer length. -/
theorem bounds_clipping_c9 :
    (∀ (w h : ℕ) (px py : ℤ), target_px_in_bounds (px, py) w h = true →
        0 ≤ px ∧ px < (w : ℤ) ∧ 0 ≤ py ∧ py < (h : ℤ) ∧ (py * (w : ℤ) + px).toNat < w * h)
    ∧ (∀ (w h : ℕ) (x y : ℚ) (sp : StampPixel) (buf : List Px),
        target_px_in_bounds (f32ToI32 (x + (sp.x : ℚ)), f32ToI32 (y + (sp.y : ℚ))) w h = false →
        paintStampPixel w h x y sp buf = buf)
    ∧ (∀ (w h : ℕ) (dx dy s x y : ℚ) (sp : StampPixel) (buf : List Px),
        target_px_in_bounds (f32ToI32 (x + (sp.x : ℚ)), f32ToI32 (y + (sp.y : ℚ))) w h = false →
        smearStampPixel w h dx dy s x y sp buf = buf)
    ∧ (∀ (w h : ℕ) (dx dy s x y : ℚ) (sp : StampPixel) (buf : List Px),
        target_px_in_bounds
          (f32ToI32 ((f32ToI32 (x + (sp.x : ℚ)) : ℚ) + -dx * s),
           f32ToI32 ((f32ToI32 (y + (sp.y : ℚ)) : ℚ) + -dy * s)) w h = false →
        smearStampPixel w h dx dy s x y sp buf = buf)
    ∧ (∀ op : PaintOperation, op.process.length = op.pixel_buffer.length)
    ∧ (∀ op : SmearOperation, op.process.length = op.pixel_buffer.length) := by
  refine ⟨in_bounds_index_lt, ?_, ?_, ?_, paint_process_length, smear_process_length⟩
  · intro w h x y sp buf hb
    unfold paintStampPixel
    simp [hb]
  · intro w h dx dy s x y sp buf hb
    unfold smearStampPixel
    simp [hb]
  · intro w h dx dy s x y sp buf hb
    unfold smearStampPixel
    dsimp only
    split
    · rw [hb]
      simp
    · rfl

/-- Witness for C9 at concrete inputs: position `(0,0)` on a 1×1 canvas is in
bounds with index `0 < 1`, and a stamp pixel landing at `(5,5)` on that
canvas leaves the buffer untouched. -/
theorem bounds_clipping_c9_witness :
    ((0 : ℤ) ≤ 0 ∧ (0 : ℤ) < (1 : ℤ) ∧ (0 : ℤ) ≤ 0 ∧ (0 : ℤ) < (1 : ℤ)
      ∧ (((0 : ℤ) * (1 : ℤ) + 0).toNat < 1 * 1))
    ∧ paintStampPixel 1 1 5 5 ⟨0, 0, Px.white⟩ [Px.transparent] = [Px.transparent] :=
  ⟨bounds_clipping_c9.1 1 1 0 0 (by with_unfolding_all decide),
   bounds_clipping_c9.2.1 1 1 5 5 ⟨0, 0, Px.white⟩ [Px.transparent] (by with_unfolding_all decide)⟩

/-! ## Claim C10: paint never decreases stored alpha -/

/-- A defaulted read at an index inside the list is a member. -/
theorem getD_mem (l : List Px) (i : ℕ) (d : Px) (h : i < l.length) : l.getD i d ∈ l := by
  induction l generalizing i with
  | nil => simp at h
  | cons a l ih =>
    cases i with
    | zero => simp [List.getD]
    | succ j =>
      have := ih j (by simpa using h)
      simp [List.getD] at this ⊢
      right
      simpa [List.getD] using this

/-- Elements of a fold are either in the accumulator or satisfy `P`, given
each step only adds `P`-elements. -/
theorem foldl_mem_or {β : Type} (P : StampPixel → Prop)
    (g : List StampPixel → β → List StampPixel)
    (hg : ∀ acc b sp, sp ∈ g acc b → sp ∈ acc ∨ P sp) :
    ∀ (l : List β) (acc : List StampPixel) (sp : StampPixel),
      sp ∈ l.foldl g acc → sp ∈ acc ∨ P sp := by
  intro l
  induction l with
  | nil => intro acc sp hsp; exact Or.inl hsp
  | cons b l ih =>
    intro acc sp hsp
    rcases ih (g acc b) sp hsp with h | h
    · exact hg acc b sp h
    · exact Or.inr h

/-- Every stamp pixel produced by `soft_circle` has a byte-bounded alpha. -/
theorem soft_circle_alpha_le (r ir : ℚ) (c : Px) :
    ∀ sp ∈ soft_circle r ir c, sp.color.a ≤ 255 := by
  intro sp hsp
  unfold soft_circle at hsp
  refine (foldl_mem_or (fun sp => sp.color.a ≤ 255) _ ?_ _ _ sp hsp).resolve_left (by simp)
  intro acc x sp' hsp'
  refine foldl_mem_or (fun sp => sp.color.a ≤ 255) _ ?_ _ _ sp' hsp'
  intro acc2 y sp2 hsp2
  dsimp only at hsp2
  split at hsp2
  · rcases List.mem_append.1 hsp2 with h2 | h2
    · exact Or.inl h2
    · right
      rw [List.mem_singleton] at h2
      subst h2
      exact min_le_right _ _
  · exact Or.inl hsp2

/-- The alpha byte written by the paint blend is at least the destination
alpha byte, for byte-bounded inputs. -/
theorem alpha_blend_ge (sa ad : ℕ) (had : ad ≤ 255) :
    ad ≤ f32ToU8 (((sa : ℚ) / 255 + (ad : ℚ) / 255 * (1 - (sa : ℚ) / 255)) * 255) := by
  have h1 : (0 : ℚ) ≤ (sa : ℚ) := by positivity
  have h2 : ((ad : ℚ)) ≤ 255 := by exact_mod_cast had
  have key : (0 : ℚ) ≤ (sa : ℚ) * (255 - (ad : ℚ)) := mul_nonneg h1 (by linarith)
  have hv : ((ad : ℚ)) ≤ ((sa : ℚ) / 255 + (ad : ℚ) / 255 * (1 - (sa : ℚ) / 255)) * 255 := by
    have hring : ((sa : ℚ) / 255 + (ad : ℚ) / 255 * (1 - (sa : ℚ) / 255)) * 255
        = (ad : ℚ) + (sa : ℚ) * (255 - (ad : ℚ)) / 255 := by ring
    rw [hring]
    have := div_nonneg key (by norm_num : (0 : ℚ) ≤ 255)
    linarith
  have hz : (ad : ℤ) ≤ ⌊((sa : ℚ) / 255 + (ad : ℚ) / 255 * (1 - (sa : ℚ) / 255)) * 255⌋ :=
    Int.le_floor.2 (by exact_mod_cast hv)
  unfold f32ToU8
  omega

/-- One paint stamp-pixel application never decreases any stored alpha byte
and keeps every alpha byte-bounded. -/
theorem paintStampPixel_alpha (w h : ℕ) (x y : ℚ) (sp : StampPixel) (buf : List Px)
    (hsp : sp.color.a ≤ 255) (hbuf : ∀ p ∈ buf, p.a ≤ 255) :
    (∀ i, (buf.getD i Px.transparent).a ≤ ((paintStampPixel w h x y sp buf).getD i Px.transparent).a)
    ∧ (∀ p ∈ paintStampPixel w h x y sp buf, p.a ≤ 255) := by
  unfold paintStampPixel
  dsimp only
  split
  · split
    · constructor
      · intro i
        rw [getD_set]
        by_cases hcase : i = (f32ToI32 (y + (sp.y : ℚ)) * (w : ℤ) + f32ToI32 (x + (sp.x : ℚ))).toNat
            ∧ (f32ToI32 (y + (sp.y : ℚ)) * (w : ℤ) + f32ToI32 (x + (sp.x : ℚ))).toNat < buf.length
        · rw [if_pos hcase, hcase.1]
          exact alpha_blend_ge sp.color.a _
            (hbuf _ (getD_mem buf _ Px.transparent hcase.2))
        · rw [if_neg hcase]
      · intro p hp
        rcases List.mem_or_eq_of_mem_set hp with hmem | hmem
        · exact hbuf p hmem
        · subst hmem
          exact min_le_right _ _
    · exact ⟨fun i => le_refl _, hbuf⟩
  · exact ⟨fun i => le_refl _, hbuf⟩

/-- Monotone, alpha-bounded steps fold to a monotone, alpha-bounded result. -/
theorem foldl_alpha_mono {β : Type} (l : List β) (f : List Px → β → List Px)
    (hf : ∀ buf b, b ∈ l → (∀ p ∈ buf, p.a ≤ 255) →
      ((∀ i, (buf.getD i Px.transparent).a ≤ ((f buf b).getD i Px.transparent).a)
       ∧ ∀ p ∈ f buf b, p.a ≤ 255)) :
    ∀ buf, (∀ p ∈ buf, p.a ≤ 255) →
      (∀ i, (buf.getD i Px.transparent).a ≤ ((l.foldl f buf).getD i Px.transparent).a)
      ∧ (∀ p ∈ l.foldl f buf, p.a ≤ 255) := by
  induction l with
  | nil => intro buf hbuf; exact ⟨fun i => le_refl _, hbuf⟩
  | cons b l ih =>
    intro buf hbuf
    obtain ⟨h1, h2⟩ := hf buf b (List.mem_cons_self _ _) hbuf
    obtain ⟨h3, h4⟩ := ih (fun buf' b' hb' => hf buf' b' (List.mem_cons_of_mem _ hb')) (f buf b) h2
    exact ⟨fun i => le_trans (h1 i) (h3 i), h4⟩

/-- C10: a single Paint frame (`is_eraser = false` — in fact any
`PaintOperation::process`) never decreases any pixel's stored alpha byte: on
a byte-valid buffer, every index holds an alpha at least the old one
afterwards (written pixels only grow, unwritten pixels are unchanged), and
the buffer length is preserved. -/
theorem paint_alpha_monotone_c10 (op : PaintOperation)
    (hbuf : ∀ p ∈ op.pixel_buffer, p.a ≤ 255) :
    op.process.length = op.pixel_buffer.length
    ∧ ∀ i, (op.pixel_buffer.getD i Px.transparent).a ≤ (op.process.getD i Px.transparent).a := by
  refine ⟨paint_process_length op, ?_⟩
  unfold PaintOperation.process
  dsimp only
  refine (foldl_alpha_mono _ _ ?_ op.pixel_buffer hbuf).1
  intro buf i _ hb
  refine foldl_alpha_mono _ _ ?_ buf hb
  intro buf2 sp hsp hb2
  exact paintStampPixel_alpha _ _ _ _ sp buf2
    (soft_circle_alpha_le op.brush.radius op.brush.inner_radius op.color sp hsp) hb2

/-- A concrete one-pixel paint operation on a buffer with alpha 100. -/
def c10Op : PaintOperation :=
  ⟨[⟨5, 5, 5, 100⟩], 1, 1, ⟨1, 1, 1, 1⟩, Px.white, (0, 0), (0, 0), false⟩

/-- Witness for C10 at a concrete operation: the stored alpha at index 0 does
not decrease. -/
theorem paint_alpha_monotone_c10_witness :
    (∀ p ∈ c10Op.pixel_buffer, p.a ≤ 255)
    ∧ (c10Op.pixel_buffer.getD 0 Px.transparent).a ≤ (c10Op.process.getD 0 Px.transparent).a :=
  ⟨by with_unfolding_all decide,
   (paint_alpha_monotone_c10 c10Op (by with_unfolding_all decide)).2 0⟩

/-! ## Claim C4: undo/redo round trip — history infrastructure -/

/-- The action log holds consecutive ids starting at `k`. -/
def idsFrom : ℕ → List UserAction → Prop
  | _, [] => True
  | k, a :: rest => a.id = k ∧ idsFrom (k + 1) rest

/-- Id bounds for members of a consecutive log. -/
theorem idsFrom_mem_bounds (L : List UserAction) (k : ℕ) (h : idsFrom k L) :
    ∀ a ∈ L, k ≤ a.id ∧ a.id < k + L.length := by
  induction L generalizing k with
  | nil => intro a ha; simp at ha
  | cons b L ih =>
    intro a ha
    obtain ⟨hb, hrest⟩ := h
    rcases List.mem_cons.1 ha with rfl | ha'
    · simp [hb]
    · have := ih (k + 1) hrest a ha'
      constructor
      · omega
      · simp only [List.length_cons]
        omega

/-- Splitting a consecutive log at the action with id `c`. -/
theorem idsFrom_decomp (L : List UserAction) (k c : ℕ) (h : idsFrom k L)
    (hk : k ≤ c) (hc : c < k + L.length) :
    ∃ X a Y, L = X ++ a :: Y ∧ a.id = c ∧ idsFrom k X ∧ X.length = c - k
      ∧ idsFrom (c + 1) Y := by
  induction L generalizing k with
  | nil => simp at hc; omega
  | cons b L ih =>
    obtain ⟨hb, hrest⟩ := h
    by_cases hck : c = k
    · refine ⟨[], b, L, by simp, by omega, trivial, by simp [hck], ?_⟩
      subst hck
      exact hrest
    · have hk1 : k + 1 ≤ c := by omega
      have hc1 : c < (k + 1) + L.length := by
        simp only [List.length_cons] at hc
        omega
      obtain ⟨X, a, Y, hL, ha, hX, hXlen, hY⟩ := ih (k + 1) hrest hk1 hc1
      refine ⟨b :: X, a, Y, by simp [hL], ha, ⟨hb, hX⟩, ?_, hY⟩
      simp [hXlen]
      omega

/-- Rebuilding a consecutive log from a split. -/
theorem idsFrom_append_cons (X Y : List UserAction) (a : UserAction) (k c : ℕ)
    (hX : idsFrom k X) (hXlen : X.length = c - k) (hk : k ≤ c) (ha : a.id = c)
    (hY : idsFrom (c + 1) Y) : idsFrom k (X ++ a :: Y) := by
  induction X generalizing k with
  | nil =>
    have : c = k := by simp at hXlen; omega
    subst this
    exact ⟨ha, hY⟩
  | cons b X ih =>
    obtain ⟨hb, hrest⟩ := hX
    have hlen : X.length = c - (k + 1) := by simp at hXlen; omega
    have hk1 : k + 1 ≤ c := by simp at hXlen; omega
    exact ⟨hb, ih (k + 1) hrest hlen hk1⟩

/-- `find?` skips a prefix with no matches. -/
theorem find?_append_none {p : UserAction → Bool} (M N : List UserAction) :
    M.find? p = none → (M ++ N).find? p = N.find? p := by
  induction M with
  | nil => intro _; rfl
  | cons b M ih =>
    intro hM
    by_cases hpb : p b = true
    · rw [List.find?_cons_of_pos _ hpb] at hM
      exact absurd hM (by simp)
    · rw [List.find?_cons_of_neg _ hpb] at hM
      rw [List.cons_append, List.find?_cons_of_neg _ hpb]
      exact ih hM

/-- `pushFrameRev` rewrites exactly the first action with the target id. -/
theorem pushFrameRev_append (M N : List UserAction) (a : UserAction) (cid : ℕ)
    (fr : BrushStrokeFrame) (hM : ∀ x ∈ M, x.id ≠ cid) (ha : a.id = cid) :
    pushFrameRev (M ++ a :: N) cid fr
      = M ++ { a with data := { a.data with frames := a.data.frames ++ [fr] } } :: N := by
  induction M with
  | nil =>
    simp only [List.nil_append, pushFrameRev]
    rw [if_pos ha]
  | cons x M ih =>
    rw [List.cons_append]
    rw [show pushFrameRev (x :: (M ++ a :: N)) cid fr
        = if x.id = cid
          then { x with data := { x.data with frames := x.data.frames ++ [fr] } } :: (M ++ a :: N)
          else x :: pushFrameRev (M ++ a :: N) cid fr from rfl]
    rw [if_neg (hM x (by simp))]
    rw [ih (fun y hy => hM y (by simp [hy]))]
    simp

/-- Layers of a canvas reachable through replay keep a fixed shape. -/
def LayerShapeOK (w h : ℕ) (l : CanvasLayer) : Prop :=
  l.pixels.length = w * h ∧ l.visible = true

/-- The canvas shape maintained by the whole session. -/
def CanvasShapeOK (nl w h : ℕ) (c : Canvas) : Prop :=
  c.width = w ∧ c.height = h ∧ c.layers.length = nl ∧ ∀ l ∈ c.layers, LayerShapeOK w h l

/-- A fresh canvas has the expected shape. -/
theorem fresh_shape (nl w h : ℕ) : CanvasShapeOK nl w h (Canvas.fresh nl w h) := by
  refine ⟨rfl, rfl, by simp [Canvas.fresh], ?_⟩
  intro l hl
  have : l = CanvasLayer.new w h := List.eq_of_mem_replicate hl
  subst this
  exact ⟨by simp [CanvasLayer.new], rfl⟩

/-- `process_brush_stroke_frame` preserves the canvas shape. -/
theorem process_frame_shape (nl w h : ℕ) (c : Canvas) (layer : ℕ) (kind : BrushStrokeKind)
    (fr : BrushStrokeFrame) (hc : CanvasShapeOK nl w h c) :
    CanvasShapeOK nl w h (c.process_brush_stroke_frame layer kind fr) := by
  obtain ⟨hw, hh, hlen, hmem⟩ := hc
  have hset : ∀ (px : List Px) (l : CanvasLayer), c.layers[layer]? = some l →
      px.length = w * h → CanvasShapeOK nl w h (c.setLayerPixels layer px) := by
    intro px l hl hpx
    unfold Canvas.setLayerPixels
    rw [hl]
    refine ⟨hw, hh, by simp [hlen], ?_⟩
    intro l' hl'
    rcases List.mem_or_eq_of_mem_set hl' with hm | hm
    · exact hmem l' hm
    · subst hm
      exact ⟨hpx, (hmem l (List.getElem?_mem hl)).2⟩
  cases kind with
  | Paint =>
    show CanvasShapeOK nl w h (c.paint layer fr)
    unfold Canvas.paint
    cases hl : c.layers[layer]? with
    | none => exact ⟨hw, hh, hlen, hmem⟩
    | some l =>
      refine hset _ l hl ?_
      rw [paint_process_length]
      exact (hmem l (List.getElem?_mem hl)).1
  | Erase =>
    show CanvasShapeOK nl w h (c.erase layer fr)
    unfold Canvas.erase
    cases hl : c.layers[layer]? with
    | none => exact ⟨hw, hh, hlen, hmem⟩
    | some l =>
      refine hset _ l hl ?_
      rw [paint_process_length]
      exact (hmem l (List.getElem?_mem hl)).1
  | Smudge =>
    show CanvasShapeOK nl w h (c.smudge layer fr)
    unfold Canvas.smudge
    cases hl : c.layers[layer]? with
    | none => exact ⟨hw, hh, hlen, hmem⟩
    | some l =>
      refine hset _ l hl ?_
      rw [smear_process_length]
      exact (hmem l (List.getElem?_mem hl)).1

/-- Replaying any actions preserves the canvas shape. -/
theorem replay_fold_shape (nl w h : ℕ) (layer : ℕ) (A : List UserAction) (c : Canvas)
    (hc : CanvasShapeOK nl w h c) :
    CanvasShapeOK nl w h (A.foldl (replayActionFrames layer) c) := by
  induction A generalizing c with
  | nil => exact hc
  | cons a A ih =>
    refine ih _ ?_
    unfold replayActionFrames
    have : ∀ (frs : List BrushStrokeFrame) (c' : Canvas), CanvasShapeOK nl w h c' →
        CanvasShapeOK nl w h (frs.foldl
          (fun cc fr => cc.process_brush_stroke_frame layer a.data.kind fr) c') := by
      intro frs
      induction frs with
      | nil => intro c' hc'; exact hc'
      | cons f frs ihf =>
        intro c' hc'
        exact ihf _ (process_frame_shape nl w h c' layer a.data.kind f hc')
    exact this _ c hc

/-- A list of transparent pixels. -/
theorem pixels_map_const (l : List Px) :
    l.map (fun _ => Px.transparent) = List.replicate l.length Px.transparent := by
  induction l with
  | nil => rfl
  | cons p ps ih => simp [List.replicate_succ, ih]

/-- Clearing a well-shaped canvas produces exactly the fresh canvas. -/
theorem clear_fresh (nl w h : ℕ) (c : Canvas) (hc : CanvasShapeOK nl w h c) :
    c.clear = Canvas.fresh nl w h := by
  obtain ⟨hw, hh, hlen, hmem⟩ := hc
  unfold Canvas.clear Canvas.fresh
  subst hw hh
  refine congrArg₂ (fun ls w => Canvas.mk ls w c.height) ?_ rfl
  refine List.eq_replicate_iff.2 ⟨by simpa using hlen, ?_⟩
  intro b hb
  rcases List.mem_map.1 hb with ⟨l, hl, rfl⟩
  obtain ⟨hpx, hvis⟩ := hmem l hl
  unfold CanvasLayer.new
  rw [pixels_map_const, hpx, hvis]

/-- The canvas determined by full replay of the history up to the cursor,
onto the active layer, starting from the fresh canvas. -/
def replayState (nl w h : ℕ) (u : User) : Canvas :=
  (u.action_history.filter fun a => decide (a.id ≤ u.current_action_id)).foldl
    (replayActionFrames u.current_layer) (Canvas.fresh nl w h)

/-- The replayed canvas is well shaped. -/
theorem replayState_shape (nl w h : ℕ) (u : User) :
    CanvasShapeOK nl w h (replayState nl w h u) :=
  replay_fold_shape nl w h u.current_layer _ _ (fresh_shape nl w h)

/-- Filtering a consecutive log by `id ≤ c` keeps a consecutive prefix. -/
theorem idsFrom_filter_le (L : List UserAction) (k c : ℕ) (h : idsFrom k L) :
    idsFrom k (L.filter fun a => decide (a.id ≤ c))
    ∧ (L.filter fun a => decide (a.id ≤ c)).length = min (c + 1 - k) L.length := by
  induction L generalizing k with
  | nil => exact ⟨trivial, by simp⟩
  | cons b L ih =>
    obtain ⟨hb, hrest⟩ := h
    by_cases hbc : b.id ≤ c
    · rw [List.filter_cons, if_pos (by simpa using hbc)]
      obtain ⟨ih1, ih2⟩ := ih (k + 1) hrest
      refine ⟨⟨hb, ih1⟩, ?_⟩
      simp only [List.length_cons, ih2]
      omega
    · rw [List.filter_cons, if_neg (by simpa using hbc)]
      have hnil : L.filter (fun a => decide (a.id ≤ c)) = [] := by
        apply List.filter_eq_nil_iff.2
        intro y hy
        have := idsFrom_mem_bounds L (k + 1) hrest y hy
        simp only [decide_eq_true_eq]
        omega
      rw [hnil]
      refine ⟨trivial, ?_⟩
      simp only [List.length_nil, List.length_cons]
      omega

/-- Filtering a decomposed log by `id ≤ c` keeps exactly the prefix and the
split action. -/
theorem filter_decomp (X Y : List UserAction) (a : UserAction) (c : ℕ)
    (hX : ∀ x ∈ X, x.id ≤ c) (ha : a.id = c) (hY : ∀ y ∈ Y, c < y.id) :
    (X ++ a :: Y).filter (fun b => decide (b.id ≤ c)) = X ++ [a] := by
  rw [List.filter_append, List.filter_cons]
  rw [List.filter_eq_self.2 (fun x hx => decide_eq_true (hX x hx))]
  rw [if_pos (decide_eq_true (by omega))]
  rw [List.filter_eq_nil_iff.2 (by intro y hy; simp only [decide_eq_true_eq]; have := hY y hy; omega)]

/-- `current_action` finds the split action when the later entries have
different ids. -/
theorem current_action_eq_of_decomp (u : User) (X Y : List UserAction) (a : UserAction)
    (hL : u.action_history = X ++ a :: Y) (ha : a.id = u.current_action_id)
    (hY : ∀ y ∈ Y, y.id ≠ u.current_action_id) :
    u.current_action? = some a := by
  unfold User.current_action?
  rw [hL]
  have hrev : (X ++ a :: Y).reverse = Y.reverse ++ a :: X.reverse := by simp
  rw [hrev]
  rw [find?_append_none _ _ (List.find?_eq_none.2 ?_)]
  · rw [List.find?_cons_of_pos _ (by simp [ha])]
  · intro y hy
    simp only [decide_eq_true_eq]
    exact hY y (List.mem_reverse.1 hy)

/-- `pushFrameToCurrent` appends the frame to the split action. -/
theorem pushFrameToCurrent_decomp (X Y : List UserAction) (a : UserAction) (cid : ℕ)
    (fr : BrushStrokeFrame) (ha : a.id = cid) (hY : ∀ y ∈ Y, y.id ≠ cid) :
    pushFrameToCurrent (X ++ a :: Y) cid fr
      = X ++ { a with data := { a.data with frames := a.data.frames ++ [fr] } } :: Y := by
  unfold pushFrameToCurrent
  have hrev : (X ++ a :: Y).reverse = Y.reverse ++ a :: X.reverse := by simp
  rw [hrev, pushFrameRev_append _ _ _ _ _ (fun y hy => hY y (List.mem_reverse.1 hy)) ha]
  simp

/-- Replaying an action with one more frame paints that frame afterwards. -/
theorem replayActionFrames_snoc (layer : ℕ) (c : Canvas) (a : UserAction)
    (fr : BrushStrokeFrame) :
    replayActionFrames layer c { a with data := { a.data with frames := a.data.frames ++ [fr] } }
      = (replayActionFrames layer c a).process_brush_stroke_frame layer a.data.kind fr := by
  unfold replayActionFrames
  simp

/-- Replaying an action with no frames is the identity. -/
theorem replayActionFrames_nil (layer : ℕ) (c : Canvas) (a : UserAction)
    (h : a.data.frames = []) : replayActionFrames layer c a = c := by
  unfold replayActionFrames
  rw [h]
  rfl

/-- The states reachable from a fresh session through the stroke/history
protocol: `start_brush_stroke`, the driver's `continue` step, `undo`, `redo`,
and the UI updates of color, brushes and pointer position.  Switching the
active layer and direct canvas edits (clear-layer, add-layer) sit outside
this protocol. -/
inductive Reach (nl w h : ℕ) : User × Canvas → Prop
  | init : Reach nl w h (User.default, Canvas.fresh nl w h)
  | start (s : User × Canvas) (k : BrushStrokeKind) (hs : Reach nl w h s) :
      Reach nl w h (s.1.start_brush_stroke k, s.2)
  | cont (s : User × Canvas) (hs : Reach nl w h s) :
      Reach nl w h (continueStrokeStep s.1 s.2)
  | undo (s : User × Canvas) (hs : Reach nl w h s) : Reach nl w h (s.1.undo s.2)
  | redo (s : User × Canvas) (hs : Reach nl w h s) : Reach nl w h (s.1.redo s.2)
  | input (s : User × Canvas) (color : Px) (pb eb sb : Brush) (cp lp : ℚ × ℚ)
      (hs : Reach nl w h s) :
      Reach nl w h ({ s.1 with
        current_color := color
        current_paint_brush := pb
        current_eraser_brush := eb
        current_smudge_brush := sb
        cursor_position := cp
        last_cursor_position := lp }, s.2)

/-- The session invariant: ids are consecutive from 1, the cursor is within
the log, and the canvas is exactly the full replay of the history up to the
cursor. -/
structure Inv (nl w h : ℕ) (s : User × Canvas) : Prop where
  ids : idsFrom 1 s.1.action_history
  cursor_le : s.1.current_action_id ≤ s.1.action_history.length
  canvas_eq : s.2 = replayState nl w h s.1

/-- Every reachable state satisfies the session invariant. -/
theorem reach_inv {nl w h : ℕ} {s : User × Canvas} (hr : Reach nl w h s) : Inv nl w h s := by
  induction hr with
  | init => exact ⟨trivial, Nat.le_refl 0, rfl⟩
  | start s k hs ih =>
    obtain ⟨hids, hle, hceq⟩ := ih
    set u := s.1 with hu
    set cur := u.current_action_id with hcur
    have hfids := idsFrom_filter_le u.action_history 1 cur hids
    have hflen : (u.action_history.filter fun a => decide (a.id ≤ cur)).length = cur := by
      rw [hfids.2]
      omega
    have hmemle : ∀ x ∈ u.action_history.filter fun a => decide (a.id ≤ cur), x.id ≤ cur := by
      intro x hx
      exact of_decide_eq_true (List.mem_filter.1 hx).2
    refine ⟨?_, ?_, ?_⟩
    · show idsFrom 1 ((u.action_history.filter fun (a : UserAction) => decide (a.id ≤ cur))
        ++ [⟨cur + 1, ⟨k, []⟩⟩])
      have := idsFrom_append_cons
        (u.action_history.filter fun (a : UserAction) => decide (a.id ≤ cur)) []
        ⟨cur + 1, ⟨k, []⟩⟩ 1 (cur + 1) hfids.1 (by omega) (by omega) rfl trivial
      simpa using this
    · show cur + 1 ≤ ((u.action_history.filter fun (a : UserAction) => decide (a.id ≤ cur))
        ++ [(⟨cur + 1, ⟨k, []⟩⟩ : UserAction)]).length
      simp [hflen]
    · show s.2 = replayState nl w h (u.start_brush_stroke k)
      unfold replayState
      show s.2 = (((u.action_history.filter fun (a : UserAction) => decide (a.id ≤ cur))
          ++ [(⟨cur + 1, ⟨k, []⟩⟩ : UserAction)]).filter
            fun (a : UserAction) => decide (a.id ≤ cur + 1)).foldl
          (replayActionFrames u.current_layer) (Canvas.fresh nl w h)
      rw [List.filter_append]
      rw [List.filter_eq_self.2
        (fun x hx => decide_eq_true (by have := hmemle x hx; omega))]
      rw [show ([(⟨cur + 1, ⟨k, []⟩⟩ : UserAction)].filter fun a => decide (a.id ≤ cur + 1))
          = [⟨cur + 1, ⟨k, []⟩⟩] from by simp]
      rw [List.foldl_append]
      rw [show ([(⟨cur + 1, ⟨k, []⟩⟩ : UserAction)].foldl (replayActionFrames u.current_layer)
          ((u.action_history.filter fun a => decide (a.id ≤ cur)).foldl
            (replayActionFrames u.current_layer) (Canvas.fresh nl w h)))
          = (u.action_history.filter fun a => decide (a.id ≤ cur)).foldl
            (replayActionFrames u.current_layer) (Canvas.fresh nl w h) from
        replayActionFrames_nil _ _ _ rfl]
      exact hceq
  | cont s hs ih =>
    obtain ⟨hids, hle, hceq⟩ := ih
    cases hca : s.1.current_action? with
    | none =>
      have hstep : continueStrokeStep s.1 s.2 = (s.1, s.2) := by
        unfold continueStrokeStep User.continue_brush_stroke
        rw [hca]
      rw [hstep]
      exact ⟨hids, hle, hceq⟩
    | some act =>
      have hactid : act.id = s.1.current_action_id := by
        have := List.find?_some hca
        simpa using this
      have hactmem : act ∈ s.1.action_history :=
        List.mem_reverse.1 (List.mem_of_find?_eq_some hca)
      have hbounds := idsFrom_mem_bounds _ 1 hids act hactmem
      have hcur1 : 1 ≤ s.1.current_action_id := by omega
      have hcurle : s.1.current_action_id < 1 + s.1.action_history.length := by omega
      obtain ⟨X, a, Y, hL, ha, hX, hXlen, hY⟩ :=
        idsFrom_decomp s.1.action_history 1 s.1.current_action_id hids hcur1 hcurle
      have hXmem : ∀ x ∈ X, x.id < s.1.current_action_id := by
        intro x hx
        have := idsFrom_mem_bounds X 1 hX x hx
        omega
      have hYmem : ∀ y ∈ Y, s.1.current_action_id < y.id := by
        intro y hy
        have := idsFrom_mem_bounds Y (s.1.current_action_id + 1) hY y hy
        omega
      have hca' : s.1.current_action? = some a :=
        current_action_eq_of_decomp s.1 X Y a hL ha (fun y hy => by have := hYmem y hy; omega)
      have hacta : act = a := by
        rw [hca] at hca'
        exact Option.some.inj hca'
      subst hacta
      have hstep : ∃ fr : BrushStrokeFrame, continueStrokeStep s.1 s.2
          = ({ s.1 with action_history :=
                pushFrameToCurrent s.1.action_history s.1.current_action_id fr },
             s.2.process_brush_stroke_frame s.1.current_layer act.data.kind fr) := by
        refine ⟨⟨(match act.data.kind with
            | .Paint => s.1.current_paint_brush
            | .Erase => s.1.current_eraser_brush
            | .Smudge => s.1.current_smudge_brush), s.1.current_color,
            s.1.cursor_position, s.1.last_cursor_position⟩, ?_⟩
        unfold continueStrokeStep User.continue_brush_stroke
        rw [hca]
      obtain ⟨fr, hstep⟩ := hstep
      rw [hstep]
      have hpush : pushFrameToCurrent s.1.action_history s.1.current_action_id fr
          = X ++ { act with data := { act.data with frames := act.data.frames ++ [fr] } } :: Y := by
        rw [hL]
        exact pushFrameToCurrent_decomp X Y act s.1.current_action_id fr ha
          (fun y hy => by have := hYmem y hy; omega)
      refine ⟨?_, ?_, ?_⟩
      · show idsFrom 1 (pushFrameToCurrent s.1.action_history s.1.current_action_id fr)
        rw [hpush]
        exact idsFrom_append_cons X Y _ 1 s.1.current_action_id hX hXlen hcur1 ha hY
      · show s.1.current_action_id
          ≤ (pushFrameToCurrent s.1.action_history s.1.current_action_id fr).length
        rw [hpush]
        rw [hL] at hle
        simpa using hle
      · show s.2.process_brush_stroke_frame s.1.current_layer act.data.kind fr
          = replayState nl w h _
        unfold replayState
        rw [hpush]
        have hfilt : ((X ++ { act with data :=
              { act.data with frames := act.data.frames ++ [fr] } } :: Y).filter
            fun b => decide (b.id ≤ s.1.current_action_id)) = X ++
            [{ act with data := { act.data with frames := act.data.frames ++ [fr] } }] :=
          filter_decomp X Y _ s.1.current_action_id
            (fun x hx => by have := hXmem x hx; omega) ha hYmem
        rw [hfilt, List.foldl_append]
        simp only [List.foldl_cons, List.foldl_nil]
        rw [replayActionFrames_snoc]
        have hs2 : s.2 = replayActionFrames s.1.current_layer
            (X.foldl (replayActionFrames s.1.current_layer) (Canvas.fresh nl w h)) act := by
          rw [hceq]
          unfold replayState
          rw [hL, filter_decomp X Y act s.1.current_action_id
            (fun x hx => by have := hXmem x hx; omega) ha hYmem]
          rw [List.foldl_append]
          simp only [List.foldl_cons, List.foldl_nil]
        rw [hs2]
  | undo s hs ih =>
    obtain ⟨hids, hle, hceq⟩ := ih
    by_cases hcur : 0 < s.1.current_action_id
    · have hu : s.1.undo s.2 = ({ s.1 with current_action_id := s.1.current_action_id - 1 },
          (s.1.action_history.filter fun a => decide (a.id ≤ s.1.current_action_id - 1)).foldl
            (replayActionFrames s.1.current_layer) s.2.clear) := by
        unfold User.undo
        rw [if_pos hcur]
      rw [hu]
      have hclear : s.2.clear = Canvas.fresh nl w h := by
        rw [hceq]
        exact clear_fresh nl w h _ (replayState_shape nl w h s.1)
      refine ⟨hids, ?_, ?_⟩
      · show s.1.current_action_id - 1 ≤ s.1.action_history.length
        omega
      · show _ = replayState nl w h { s.1 with current_action_id := s.1.current_action_id - 1 }
        unfold replayState
        rw [hclear]
    · have hu : s.1.undo s.2 = (s.1, s.2) := by
        unfold User.undo
        rw [if_neg hcur]
      rw [hu]
      exact ⟨hids, hle, hceq⟩
  | redo s hs ih =>
    obtain ⟨hids, hle, hceq⟩ := ih
    cases hfind : s.1.action_history.find? (fun a => decide (s.1.current_action_id < a.id)) with
    | none =>
      have hu : s.1.redo s.2 = (s.1, s.2) := by
        unfold User.redo
        rw [hfind]
      rw [hu]
      exact ⟨hids, hle, hceq⟩
    | some next =>
      have hnextmem : next ∈ s.1.action_history := List.mem_of_find?_eq_some hfind
      have hb := idsFrom_mem_bounds _ 1 hids next hnextmem
      have hu : s.1.redo s.2 = ({ s.1 with current_action_id := next.id },
          (s.1.action_history.filter fun a => decide (a.id ≤ next.id)).foldl
            (replayActionFrames s.1.current_layer) s.2.clear) := by
        unfold User.redo
        rw [hfind]
      rw [hu]
      have hclear : s.2.clear = Canvas.fresh nl w h := by
        rw [hceq]
        exact clear_fresh nl w h _ (replayState_shape nl w h s.1)
      refine ⟨hids, ?_, ?_⟩
      · show next.id ≤ s.1.action_history.length
        omega
      · show _ = replayState nl w h { s.1 with current_action_id := next.id }
        unfold replayState
        rw [hclear]
  | input s color pb eb sb cp lp hs ih =>
    obtain ⟨hids, hle, hceq⟩ := ih
    exact ⟨hids, hle, hceq⟩

/-- C4 amended: for every state reachable through the stroke/history protocol
whose history cursor is positive, `undo()` immediately followed by `redo()`
restores the canvas — all layers' pixel buffers — exactly. -/
theorem undo_redo_roundtrip_c4 (nl w h : ℕ) (s : User × Canvas) (hr : Reach nl w h s)
    (hc : 0 < s.1.current_action_id) :
    ((s.1.undo s.2).1.redo (s.1.undo s.2).2).2 = s.2 := by
  obtain ⟨hids, hle, hceq⟩ := reach_inv hr
  have hu : s.1.undo s.2 = ({ s.1 with current_action_id := s.1.current_action_id - 1 },
      (s.1.action_history.filter fun a => decide (a.id ≤ s.1.current_action_id - 1)).foldl
        (replayActionFrames s.1.current_layer) s.2.clear) := by
    unfold User.undo
    rw [if_pos hc]
  obtain ⟨X, a, Y, hL, ha, hX, hXlen, hY⟩ :=
    idsFrom_decomp s.1.action_history 1 s.1.current_action_id hids (by omega) (by omega)
  have hXmem : ∀ x ∈ X, x.id < s.1.current_action_id := fun x hx => by
    have := idsFrom_mem_bounds X 1 hX x hx
    omega
  have hfind : s.1.action_history.find?
      (fun b => decide (s.1.current_action_id - 1 < b.id)) = some a := by
    rw [hL]
    rw [find?_append_none _ _ (List.find?_eq_none.2 ?_)]
    · rw [List.find?_cons_of_pos _ (by simp only [decide_eq_true_eq]; omega)]
    · intro x hx
      simp only [decide_eq_true_eq]
      have := hXmem x hx
      omega
  have hredo_find : (s.1.undo s.2).1.action_history.find?
      (fun b => decide ((s.1.undo s.2).1.current_action_id < b.id)) = some a := by
    rw [hu]
    exact hfind
  have hredo : (s.1.undo s.2).1.redo (s.1.undo s.2).2
      = ({ (s.1.undo s.2).1 with current_action_id := a.id },
         ((s.1.undo s.2).1.action_history.filter fun b => decide (b.id ≤ a.id)).foldl
           (replayActionFrames (s.1.undo s.2).1.current_layer) (s.1.undo s.2).2.clear) := by
    unfold User.redo
    rw [hredo_find]
  rw [hredo]
  obtain ⟨hids1, hle1, hceq1⟩ := reach_inv (Reach.undo s hr)
  have hclear : (s.1.undo s.2).2.clear = Canvas.fresh nl w h := by
    rw [hceq1]
    exact clear_fresh nl w h _ (replayState_shape nl w h (s.1.undo s.2).1)
  show ((s.1.undo s.2).1.action_history.filter fun b => decide (b.id ≤ a.id)).foldl
      (replayActionFrames (s.1.undo s.2).1.current_layer) (s.1.undo s.2).2.clear = s.2
  rw [hclear, hu]
  show (s.1.action_history.filter fun b => decide (b.id ≤ a.id)).foldl
      (replayActionFrames s.1.current_layer) (Canvas.fresh nl w h) = s.2
  rw [ha, hceq]
  rfl

/-- The brush used by the concrete C4 states: hard unit-radius circle. -/
def c4Brush : Brush := ⟨1, 1, 1, 1⟩

/-- The fresh session with the paint brush set to `c4Brush` (reached by one
`input` step). -/
def c4s0 : User × Canvas :=
  ({ User.default with
      current_color := Px.white
      current_paint_brush := c4Brush
      current_eraser_brush := Brush.default
      current_smudge_brush := Brush.default
      cursor_position := (0, 0)
      last_cursor_position := (0, 0) }, Canvas.fresh 1 1 1)

/-- After starting a paint stroke. -/
def c4s1 : User × Canvas := (c4s0.1.start_brush_stroke .Paint, c4s0.2)

/-- After one pointer-move step: the single pixel of the 1×1 canvas is now
opaque white. -/
def c4s2 : User × Canvas := continueStrokeStep c4s1.1 c4s1.2

/-- After undoing that stroke: blank canvas, cursor 0, pending redo. -/
def c4s3 : User × Canvas := c4s2.1.undo c4s2.2

/-- C4 counterexample: at the reachable state `c4s3` (history cursor 0 with a
pending redo), `undo()` is a no-op but the following `redo()` repaints the
stroke, so the pixel buffer after `undo(); redo()` differs from the buffer
before — the claim fails for cursor 0. -/
theorem undo_redo_counterexample_c4 :
    Reach 1 1 1 c4s3
    ∧ c4s3.1.current_action_id = 0
    ∧ ((c4s3.1.undo c4s3.2).1.redo (c4s3.1.undo c4s3.2).2).2 ≠ c4s3.2 := by
  refine ⟨?_, ?_, ?_⟩
  · exact Reach.undo c4s2 (Reach.cont c4s1 (Reach.start c4s0 .Paint
      (Reach.input (User.default, Canvas.fresh 1 1 1) Px.white c4Brush Brush.default
        Brush.default (0, 0) (0, 0) Reach.init)))
  · with_unfolding_all decide
  · with_unfolding_all decide

/-- Witness for C4's amended round trip at the concrete reachable state
`c4s2` (cursor 1): undo-then-redo restores the painted canvas exactly. -/
theorem undo_redo_roundtrip_c4_witness :
    0 < c4s2.1.current_action_id
    ∧ ((c4s2.1.undo c4s2.2).1.redo (c4s2.1.undo c4s2.2).2).2 = c4s2.2 :=
  ⟨by with_unfolding_all decide,
   undo_redo_roundtrip_c4 1 1 1 c4s2
     (Reach.cont c4s1 (Reach.start c4s0 .Paint
       (Reach.input (User.default, Canvas.fresh 1 1 1) Px.white c4Brush Brush.default
         Brush.default (0, 0) (0, 0) Reach.init)))
     (by with_unfolding_all decide)⟩

end Rustbrush
